import Mathlib

/-!
Verification development for the mamba package-management core.

The repository excerpt under verification contains the environment
utility header (`environment.hpp`: `env::get`, `env::which`,
`expand_user`, `shrink_user`) together with the specification of the
dependency-resolution and transaction-execution engine (PackageIndex,
JobBuilder, Solver, TransactionPlanner, TransactionExecutor).  The
engine itself is not part of the visible sources, so its components are
modelled from the specification text; the environment utilities are
embedded directly from the C++ header.
-/

namespace Mamba

/-- Versions are structured, comparable sequences of numeric components
(spec section 3: version is "structured, comparable"). -/
abbrev Version := List Nat

/-- Lexicographic three-way comparison of versions, component by
component; a shorter version compares below any proper extension. -/
def verCmp : Version → Version → Ordering
  | [], [] => .eq
  | [], _ :: _ => .lt
  | _ :: _, [] => .gt
  | a :: as, b :: bs =>
    if a < b then .lt
    else if b < a then .gt
    else verCmp as bs

/-- Strict version order induced by the comparison. -/
def verLT (a b : Version) : Prop := verCmp a b = Ordering.lt

/-- Version-constraint operators of a MatchSpec (spec section 3:
operators eq, ge, le, gt, lt, ne, fuzzy, wildcard). -/
inductive VersionOp where
  | eq | ge | le | gt | lt | ne | fuzzy | wildcard
  deriving DecidableEq, Repr

/-- One version constraint: an operator applied to a literal version. -/
structure VersionConstraint where
  op : VersionOp
  ver : Version
  deriving DecidableEq, Repr

/-- Componentwise prefix test on versions, used by wildcard and fuzzy
constraints. -/
def verPre : Version → Version → Bool
  | [], _ => true
  | _ :: _, [] => false
  | a :: p, b :: v => a == b && verPre p v

/-- MatchSpec (spec section 3): required name, conjunctive version
constraints, optional build-string / build-number / channel
restrictions, and an optional flag. -/
structure MatchSpec where
  name : String
  versions : List VersionConstraint
  buildString : Option String
  buildNumber : Option Nat
  channel : Option String
  optional : Bool
  deriving DecidableEq, Repr

/-- PackageRecord (spec section 3): immutable descriptor of one
available package. -/
structure PackageRecord where
  name : String
  version : Version
  buildString : String
  buildNumber : Nat
  channel : String
  depends : List MatchSpec
  constrains : List MatchSpec
  checksum : String
  size : Nat
  url : String
  deriving DecidableEq, Repr

/-- Does a version satisfy one version constraint? -/
def verSatisfies (v : Version) (c : VersionConstraint) : Bool :=
  match c.op with
  | .eq => decide (v = c.ver)
  | .ge => match verCmp v c.ver with | .lt => false | _ => true
  | .le => match verCmp v c.ver with | .gt => false | _ => true
  | .gt => match verCmp v c.ver with | .gt => true | _ => false
  | .lt => match verCmp v c.ver with | .lt => true | _ => false
  | .ne => decide (v ≠ c.ver)
  | .fuzzy =>
    (match verCmp v c.ver with | .lt => false | _ => true)
      && verPre c.ver.dropLast v
  | .wildcard => verPre c.ver v

/-- Does a record satisfy a MatchSpec?  All constraints are conjunctive
(spec section 4.1). -/
def satisfies (r : PackageRecord) (ms : MatchSpec) : Bool :=
  r.name == ms.name
    && ms.versions.all (fun c => verSatisfies r.version c)
    && (match ms.buildString with | none => true | some b => r.buildString == b)
    && (match ms.buildNumber with | none => true | some n => r.buildNumber == n)
    && (match ms.channel with | none => true | some ch => r.channel == ch)

/-- Modelled from the spec: the PackageIndex pool (section 4.2, absent
from the visible sources) is the list of ingested records, each tagged
with the priority of the repository that supplied it (registration
order, lower number = higher priority). -/
abbrev Pool := List (PackageRecord × Nat)

/-- Two records collide for de-duplication when they agree on
(name, version, build string) (spec section 4.2). -/
def sameKey (a b : PackageRecord) : Bool :=
  a.name == b.name && decide (a.version = b.version) && a.buildString == b.buildString

/-- Modelled from the spec: `add_repository` inserts records,
de-duplicating exact (name, version, build) collisions by keeping the
entry from the higher-priority repository — first registered wins
(spec section 4.2). -/
def addRepository (pool : Pool) (prio : Nat) (records : List PackageRecord) : Pool :=
  records.foldl
    (fun acc r => if acc.any (fun p => sameKey p.1 r) then acc else acc ++ [(r, prio)])
    pool

/-- Modelled from the spec: building the index registers repositories
in order; priority equals registration order (spec section 4.2). -/
def buildIndex (repos : List (List PackageRecord)) : Pool :=
  (repos.foldl (fun acc rs => (addRepository acc.1 acc.2 rs, acc.2 + 1)) ([], 0)).1

/-- Candidate-ordering comparison used by `candidates` (spec section
4.2): version descending, then build number descending, then
repository priority ascending. -/
def candLE (a b : PackageRecord × Nat) : Bool :=
  match verCmp b.1.version a.1.version with
  | .lt => true
  | .gt => false
  | .eq =>
    if b.1.buildNumber < a.1.buildNumber then true
    else if a.1.buildNumber < b.1.buildNumber then false
    else decide (a.2 ≤ b.2)

/-- Propositional form of the candidate ordering. -/
def candRel (a b : PackageRecord × Nat) : Prop := candLE a b = true

instance : DecidableRel candRel := fun a b => instDecidableEqBool (candLE a b) true

/-- Modelled from the spec: `candidates(matchspec)` with the supplying
repository priorities still attached — matching records ordered by (1)
version descending, (2) build number descending, (3) repository
priority (spec section 4.2). -/
def candidatesWithPrio (pool : Pool) (ms : MatchSpec) : List (PackageRecord × Nat) :=
  List.insertionSort candRel (pool.filter (fun p => satisfies p.1 ms))

/-- Modelled from the spec: `candidates(matchspec) -> ordered sequence
of PackageRecord` (spec section 4.2). -/
def candidates (pool : Pool) (ms : MatchSpec) : List PackageRecord :=
  (candidatesWithPrio pool ms).map Prod.fst

/-- Modelled from the spec: `InstalledState` (section 3, absent from
the visible sources) — the installed-package manifest, kept as a list
of records canonically sorted by strictly increasing name, so that a
name appears at most once. -/
abbrev InstalledState := List PackageRecord

/-- Names of the packages in a record list. -/
def names (st : List PackageRecord) : List String := st.map PackageRecord.name

/-- First record with the given name, if any. -/
def lookupName (n : String) : List PackageRecord → Option PackageRecord
  | [] => none
  | r :: rest => if r.name = n then some r else lookupName n rest

/-- Number of records carrying a given name. -/
def countNamed (n : String) (l : List PackageRecord) : Nat :=
  (l.filter (fun r => r.name == n)).length

/-- User request: install/update by MatchSpec, or explicit removal by
name (spec sections 4.3 and 8, scenario D). -/
inductive Request where
  | install (s : MatchSpec)
  | remove (n : String)
  deriving DecidableEq, Repr

/-- Solver directive (spec section 3): Install, Remove, Update, Lock. -/
inductive Job where
  | install (s : MatchSpec)
  | remove (n : String)
  | update (s : MatchSpec)
  | lock (n : String)
  deriving DecidableEq, Repr

/-- Errors surfaced by resolution (spec section 7). -/
inductive ResolveError where
  | unsatisfiableRequest (n : String)
  | conflict
  deriving DecidableEq, Repr

/-- Names targeted by install requests. -/
def requestedNames (requests : List Request) : List String :=
  requests.filterMap (fun rq => match rq with | .install s => some s.name | .remove _ => none)

namespace JobBuilder

/-- Modelled from the spec: request translation (section 4.3).  Install
requests for names with zero candidates in the index fail fast with
`UnsatisfiableRequest{name}`; an explicit removal request for a name
not currently installed is a no-op, not an error. -/
def buildRequestJobs (pool : Pool) (installed : InstalledState) :
    List Request → Except ResolveError (List Job)
  | [] => .ok []
  | .install s :: rest =>
    if candidates pool s = [] then .error (.unsatisfiableRequest s.name)
    else
      match buildRequestJobs pool installed rest with
      | .error e => .error e
      | .ok js => .ok (Job.install s :: js)
  | .remove n :: rest =>
    match buildRequestJobs pool installed rest with
    | .error e => .error e
    | .ok js => .ok (if (names installed).contains n then Job.remove n :: js else js)

/-- Modelled from the spec: `build(requests, installed, pins) -> [Job]`
(section 4.3).  A pin for a name not requested becomes a `Lock` job. -/
def build (requests : List Request) (installed : InstalledState)
    (pins : List MatchSpec) (pool : Pool) : Except ResolveError (List Job) :=
  match buildRequestJobs pool installed requests with
  | .error e => .error e
  | .ok js =>
    .ok (js ++ (pins.filter (fun p => !((requestedNames requests).contains p.name))).map
      (fun p => Job.lock p.name))

end JobBuilder

/-- Is the spec satisfied by some already-selected record? -/
def satBy (selected : List PackageRecord) (s : MatchSpec) : Bool :=
  selected.any (fun r => satisfies r s)

/-- Is some selected record already occupying this name? -/
def nameTaken (selected : List PackageRecord) (n : String) : Bool :=
  selected.any (fun r => r.name == n)

/-- Candidates of a spec that are not forbidden by Remove jobs, in the
deterministic order of section 4.2. -/
def availCandidates (pool : Pool) (removed : List String) (s : MatchSpec) :
    List PackageRecord :=
  (candidates pool s).filter (fun r => !(removed.contains r.name))

/-- Non-optional dependency constraints of a record (the spec's closure
invariant ranges over these only). -/
def hardDeps (r : PackageRecord) : List MatchSpec :=
  r.depends.filter (fun d => !d.optional)

/-- Modelled from the spec: the solver search loop (section 4.4).  The
spec's weighted SAT search is simplified to a deterministic greedy
closure: pending constraints are discharged in order, each unsatisfied
constraint selects the first available candidate in the section-4.2
order and enqueues that record's non-optional dependencies; a name
conflict or an exhausted candidate list is a Conflict (`none`).  The
fuel bound plays the role of the solver's cooperative iteration limit. -/
def solveLoop (pool : Pool) (removed : List String) :
    Nat → List PackageRecord → List MatchSpec → Option (List PackageRecord)
  | 0, _, _ => none
  | _ + 1, selected, [] => some selected
  | fuel + 1, selected, s :: pending =>
    if satBy selected s then solveLoop pool removed fuel selected pending
    else if nameTaken selected s.name then none
    else
      match availCandidates pool removed s with
      | [] => none
      | r :: _ => solveLoop pool removed fuel (r :: selected) (pending ++ hardDeps r)

/-- Install/Update specs of a job list. -/
def installSpecs (jobs : List Job) : List MatchSpec :=
  jobs.filterMap (fun j => match j with
    | .install s => some s
    | .update s => some s
    | _ => none)

/-- Names forbidden by Remove jobs. -/
def removedNames (jobs : List Job) : List String :=
  jobs.filterMap (fun j => match j with | .remove n => some n | _ => none)

/-- Modelled from the spec: `solve(jobs, index) -> Solution | Conflict`
(section 4.4), via the deterministic greedy closure loop.  `Lock` jobs
carry no candidate restriction in this model (the pinned-version
restriction is outside the claims settled here). -/
def solve (jobs : List Job) (pool : Pool) : Option (List PackageRecord) :=
  solveLoop pool (removedNames jobs) (pool.length + 1) [] (installSpecs jobs)

/-- Modelled from the spec: the resolution pipeline (section 2 data
flow) with the solver taken as a parameter, so that non-invocation of
the solver on fail-fast paths is expressible. -/
def resolveWith (slv : List Job → Pool → Option (List PackageRecord))
    (requests : List Request) (installed : InstalledState)
    (pins : List MatchSpec) (pool : Pool) :
    Except ResolveError (List PackageRecord) :=
  match JobBuilder.build requests installed pins pool with
  | .error e => .error e
  | .ok jobs =>
    match slv jobs pool with
    | some sol => .ok sol
    | none => .error .conflict

/-- Modelled from the spec: the concrete resolution pipeline, request
strings already parsed (section 2 data flow). -/
def resolve (requests : List Request) (installed : InstalledState)
    (pins : List MatchSpec) (pool : Pool) :
    Except ResolveError (List PackageRecord) :=
  resolveWith solve requests installed pins pool

/-- TransactionOperation (spec section 3): Link, Unlink, Supersede,
NoOp. -/
inductive TransactionOperation where
  | link (r : PackageRecord)
  | unlink (r : PackageRecord)
  | supersede (old new : PackageRecord)
  | noOp (r : PackageRecord)
  deriving DecidableEq, Repr

namespace TransactionPlanner

/-- Modelled from the spec: the operation emitted for one installed
record (section 4.5) — a record whose name is absent from the solution
becomes `Unlink`, identical identity becomes `NoOp`, same name with
different identity becomes `Supersede`. -/
def plannedOp (solution : List PackageRecord) (r : PackageRecord) :
    TransactionOperation :=
  match lookupName r.name solution with
  | none => TransactionOperation.unlink r
  | some s =>
    if s = r then TransactionOperation.noOp r
    else TransactionOperation.supersede r s

/-- Modelled from the spec: the per-installed-record part of
`plan(solution, installed)` (section 4.5). -/
def planInstalled (solution : List PackageRecord)
    (installed : List PackageRecord) : List TransactionOperation :=
  installed.map (plannedOp solution)

/-- Modelled from the spec: packages in the solution whose name is not
installed become `Link` (section 4.5). -/
def planLinks (installed : List PackageRecord) (solution : List PackageRecord) :
    List TransactionOperation :=
  solution.filterMap (fun s =>
    if lookupName s.name installed = none then some (TransactionOperation.link s) else none)

/-- Modelled from the spec: `plan(solution, installed) ->
[TransactionOperation]` by set difference (section 4.5). -/
def plan (solution : List PackageRecord) (installed : InstalledState) :
    List TransactionOperation :=
  planInstalled solution installed ++ planLinks installed solution

end TransactionPlanner

/-- Strict lexicographic order on character lists, used as the
canonical ordering of package names in the manifest. -/
def charListLt : List Char → List Char → Bool
  | [], [] => false
  | [], _ :: _ => true
  | _ :: _, [] => false
  | a :: as, b :: bs =>
    if a < b then true
    else if b < a then false
    else charListLt as bs

/-- Strict order on names. -/
def nameLt (a b : String) : Prop := charListLt a.data b.data = true

instance : DecidableRel nameLt := fun a b => instDecidableEqBool (charListLt a.data b.data) true

/-- Canonical well-formedness of the installed manifest: records sorted
by strictly increasing name. -/
def SortedState (st : InstalledState) : Prop :=
  st.Pairwise (fun a b => nameLt a.name b.name)

/-- Ordered insertion of a record by name into the manifest. -/
def insertSorted (r : PackageRecord) : InstalledState → InstalledState
  | [] => [r]
  | x :: rest => if nameLt r.name x.name then r :: x :: rest else x :: insertSorted r rest

/-- Removal of every record with the given name from the manifest. -/
def eraseName (n : String) (st : InstalledState) : InstalledState :=
  st.filter (fun r => !(r.name == n))

/-- Effect of one operation on the installed manifest (spec section
4.6: links establish the package, unlinks remove it, supersede swaps
old for new). -/
def applyOp (op : TransactionOperation) (st : InstalledState) : InstalledState :=
  match op with
  | .link r => insertSorted r st
  | .unlink r => eraseName r.name st
  | .supersede o n => insertSorted n (eraseName o.name st)
  | .noOp _ => st

/-- Reversal of one operation, used during rollback (spec section 4.6:
operations already applied are reversed). -/
def revertOp (op : TransactionOperation) (st : InstalledState) : InstalledState :=
  match op with
  | .link r => eraseName r.name st
  | .unlink r => insertSorted r st
  | .supersede o n => insertSorted o (eraseName n.name st)
  | .noOp _ => st

/-- An operation is well-formed against a state when it matches what
the planner would emit from that state (section 4.5): links only for
absent names, unlinks only for the exact installed record, supersede
only between same-named records with the old one installed. -/
def opOk (op : TransactionOperation) (st : InstalledState) : Prop :=
  match op with
  | .link r => lookupName r.name st = none
  | .unlink r => lookupName r.name st = some r
  | .supersede o n => o.name = n.name ∧ lookupName o.name st = some o
  | .noOp _ => True

instance instDecOpOk (op : TransactionOperation) (st : InstalledState) :
    Decidable (opOk op st) :=
  match op with
  | .link r => inferInstanceAs (Decidable (lookupName r.name st = none))
  | .unlink r => inferInstanceAs (Decidable (lookupName r.name st = some r))
  | .supersede o n =>
    inferInstanceAs (Decidable (o.name = n.name ∧ lookupName o.name st = some o))
  | .noOp _ => inferInstanceAs (Decidable True)

/-- A plan is valid for a state when each operation is well-formed for
the state reached after the previous ones. -/
def validPlan : InstalledState → List TransactionOperation → Prop
  | _, [] => True
  | st, op :: ops => opOk op st ∧ validPlan (applyOp op st) ops

instance instDecValidPlan :
    (st : InstalledState) → (ops : List TransactionOperation) → Decidable (validPlan st ops)
  | _, [] => .isTrue trivial
  | st, op :: ops =>
    have := instDecValidPlan (applyOp op st) ops
    inferInstanceAs (Decidable (opOk op st ∧ validPlan (applyOp op st) ops))

/-- Names touched by one operation. -/
def opNames : TransactionOperation → List String
  | .link r => [r.name]
  | .unlink r => [r.name]
  | .supersede o n => [o.name, n.name]
  | .noOp _ => []

/-- HistoryEntry (spec section 3): previous and resulting package
lists of a committed transaction. -/
structure HistoryEntry where
  previous : InstalledState
  resulting : InstalledState
  deriving DecidableEq, Repr

/-- Outcome of executing a transaction: full commit with an appended
history entry, or failure after rollback with the restored state and
the history untouched (spec section 4.6). -/
inductive ExecResult where
  | committed (state : InstalledState) (history : List HistoryEntry)
  | failed (restored : InstalledState) (history : List HistoryEntry)
  deriving DecidableEq, Repr

/-- State after applying a whole operation list in order. -/
def applyOps (ops : List TransactionOperation) (st : InstalledState) : InstalledState :=
  ops.foldl (fun s op => applyOp op s) st

namespace TransactionExecutor

/-- Modelled from the spec: sequential rollback — the applied
operations, most recent first, are reversed in strict reverse order
(spec sections 4.6 and 5). -/
def rollback : List TransactionOperation → InstalledState → InstalledState
  | [], st => st
  | op :: rest, st => rollback rest (revertOp op st)

/-- Modelled from the spec: the execution loop (section 4.6).  The
operations are processed in planned order; a failure injected at index
`failAt` triggers rollback of the already-applied prefix (held most
recent first) and surfaces the failure; reaching the end commits and
appends a `HistoryEntry`. -/
def execGo (st0 : InstalledState) (hist : List HistoryEntry) (failAt : Option Nat) :
    Nat → InstalledState → List TransactionOperation → List TransactionOperation →
    ExecResult
  | _, st, _, [] => .committed st (⟨st0, st⟩ :: hist)
  | i, st, applied, op :: rest =>
    if failAt = some i then .failed (rollback applied st) hist
    else execGo st0 hist failAt (i + 1) (applyOp op st) (op :: applied) rest

/-- Modelled from the spec: `execute(ops, cache)` with fault injection
(section 4.6; section 8, transaction atomicity: "simulated failure
injected at each operation index"). -/
def execute (ops : List TransactionOperation) (st : InstalledState)
    (hist : List HistoryEntry) (failAt : Option Nat) : ExecResult :=
  execGo st hist failAt 0 st [] ops

end TransactionExecutor

namespace env

/-- Platform path separator, POSIX branch of `pathsep()`
(environment.hpp line 41). -/
def pathsep : Char := ':'

/-- Splitting a character list on a separator, modelling
`mamba::split(path, pathsep())` (declared in util.hpp, outside the
visible excerpt) with its standard semantics: the list of segments
between separator occurrences. -/
def splitSep (sep : Char) : List Char → List (List Char)
  | [] => [[]]
  | c :: rest =>
    match splitSep sep rest with
    | [] => [[c]]
    | w :: ws => if c = sep then [] :: w :: ws else (c :: w) :: ws

/-- Filesystem oracle seen by `which` (environment.hpp lines 115-139):
existence test, directory test, and directory entries (file names in
iteration order). -/
structure FileSystem where
  pathExists : List Char → Bool
  isDirectory : List Char → Bool
  dirEntries : List Char → List (List Char)

/-- Full path of a directory entry, as produced by
`fs::directory_iterator`: the directory path joined with the entry
name. -/
def joinPath (dir name : List Char) : List Char := dir ++ '/' :: name

/-- Inner loop of `which` (environment.hpp lines 129-135): first
directory entry whose filename equals `exe`, as a full path. -/
def findEntry (exe : List Char) (dir : List Char) : List (List Char) → Option (List Char)
  | [] => none
  | e :: rest => if e = exe then some (joinPath dir e) else findEntry exe dir rest

/-- Outer loop of `which` (environment.hpp lines 123-136): scan PATH
components in order, skipping ones that do not exist or are not
directories. -/
def whichLoop (fs : FileSystem) (exe : List Char) : List (List Char) → List Char
  | [] => []
  | p :: parts =>
    if !(fs.pathExists p) || !(fs.isDirectory p) then whichLoop fs exe parts
    else
      match findEntry exe p (fs.dirEntries p) with
      | some path => path
      | none => whichLoop fs exe parts

/-- Embedding of `env::which` (environment.hpp lines 115-139), with
the PATH variable contents and the filesystem passed explicitly. -/
def which (fs : FileSystem) (env_path : Option (List Char)) (exe : List Char) : List Char :=
  match env_path with
  | none => []
  | some path => whichLoop fs exe (splitSep pathsep path)

/-- Embedding of `env::get` on POSIX (environment.hpp lines 79-85),
with `std::getenv` passed explicitly as a pure oracle. -/
def get (getenv : String → Option String) (key : String) : Option String :=
  match getenv key with
  | some value => some value
  | none => none

/-- Prefix test on character lists, modelling `mamba::starts_with`
(declared in util.hpp, outside the visible excerpt) with its standard
semantics. -/
def starts_with (str pre : List Char) : Bool :=
  match pre, str with
  | [], _ => true
  | _ :: _, [] => false
  | a :: pre2, b :: str2 => a == b && starts_with str2 pre2

/-- Embedding of `expand_user` (environment.hpp lines 229-237): if the
first character is a tilde it is replaced by the home directory,
otherwise the path is returned unchanged. -/
def expand_user (home : List Char) (p : List Char) : List Char :=
  match p with
  | [] => []
  | c :: rest => if c = '~' then home ++ rest else c :: rest

/-- Embedding of `shrink_user` (environment.hpp lines 239-248): if the
path starts with the home directory, that prefix is replaced by a
tilde. -/
def shrink_user (home : List Char) (p : List Char) : List Char :=
  if starts_with p home then '~' :: p.drop home.length else p

/-- Concrete filesystem used to exercise `which` on a concrete input:
only the directory "/b" exists, and it contains the single entry
"sh". -/
def demoFS : FileSystem :=
  ⟨fun p => decide (p = ['/', 'b']),
   fun p => decide (p = ['/', 'b']),
   fun p => if p = ['/', 'b'] then [['s', 'h']] else []⟩

end env

/-! Concrete data used to exercise the engine on concrete inputs. -/

/-- Bare MatchSpec constraining only the name. -/
def demoMS (n : String) : MatchSpec := ⟨n, [], none, none, none, false⟩

/-- Concrete record "b 1.0" with no dependencies. -/
def demoRecB : PackageRecord := ⟨"b", [1], "0", 0, "main", [], [], "cb", 1, "ub"⟩

/-- Concrete record "a 1.0" depending on "b". -/
def demoRecA : PackageRecord := ⟨"a", [1], "0", 0, "main", [demoMS "b"], [], "ca", 1, "ua"⟩

/-- Concrete index holding the two demo records in one repository. -/
def demoPool : Pool := buildIndex [[demoRecA, demoRecB]]

/-! Helper lemmas about the environment utilities. -/

theorem starts_with_append (h r : List Char) : env.starts_with (h ++ r) h = true := by
  induction h with
  | nil => cases r <;> rfl
  | cons a t ih => simpa [env.starts_with] using ih

theorem findEntry_of_mem (exe dir : List Char) (entries : List (List Char))
    (hmem : exe ∈ entries) :
    env.findEntry exe dir entries = some (env.joinPath dir exe) := by
  induction entries with
  | nil => cases hmem
  | cons e rest ih =>
    by_cases he : e = exe
    · subst he; simp [env.findEntry]
    · have : exe ∈ rest := by
        cases hmem with
        | head => exact absurd rfl he
        | tail _ h => exact h
      simp [env.findEntry, he, ih this]

theorem findEntry_of_not_mem (exe dir : List Char) (entries : List (List Char))
    (hmem : exe ∉ entries) :
    env.findEntry exe dir entries = none := by
  induction entries with
  | nil => rfl
  | cons e rest ih =>
    have he : ¬(e = exe) := fun h => hmem (h ▸ List.mem_cons_self e rest)
    have hr : exe ∉ rest := fun h => hmem (List.mem_cons_of_mem e h)
    simp [env.findEntry, he, ih hr]

theorem whichLoop_all_misses (fs : env.FileSystem) (exe : List Char)
    (parts : List (List Char))
    (h : ∀ p ∈ parts,
      fs.pathExists p = false ∨ fs.isDirectory p = false ∨ exe ∉ fs.dirEntries p) :
    env.whichLoop fs exe parts = [] := by
  induction parts with
  | nil => rfl
  | cons p rest ih =>
    have hrest := ih (fun q hq => h q (List.mem_cons_of_mem p hq))
    rcases h p (List.mem_cons_self p rest) with hp | hp | hp
    · simp [env.whichLoop, hp, hrest]
    · simp [env.whichLoop, hp, hrest]
    · by_cases hex : fs.pathExists p
      · by_cases hdir : fs.isDirectory p
        · simp [env.whichLoop, hex, hdir, findEntry_of_not_mem exe p _ hp, hrest]
        · simp [env.whichLoop, Bool.eq_false_iff.2 hdir, hrest]
      · simp [env.whichLoop, Bool.eq_false_iff.2 hex, hrest]

theorem whichLoop_finds (fs : env.FileSystem) (exe : List Char)
    (parts1 : List (List Char)) (p : List Char) (parts2 : List (List Char))
    (h1 : ∀ q ∈ parts1,
      fs.pathExists q = false ∨ fs.isDirectory q = false ∨ exe ∉ fs.dirEntries q)
    (hex : fs.pathExists p = true) (hdir : fs.isDirectory p = true)
    (hmem : exe ∈ fs.dirEntries p) :
    env.whichLoop fs exe (parts1 ++ p :: parts2) = env.joinPath p exe := by
  induction parts1 with
  | nil => simp [env.whichLoop, hex, hdir, findEntry_of_mem exe p _ hmem]
  | cons q rest ih =>
    have hrest := ih (fun x hx => h1 x (List.mem_cons_of_mem q hx))
    rcases h1 q (List.mem_cons_self q rest) with hq | hq | hq
    · simpa [env.whichLoop, hq] using hrest
    · simpa [env.whichLoop, hq] using hrest
    · by_cases hqex : fs.pathExists q
      · by_cases hqdir : fs.isDirectory q
        · simpa [env.whichLoop, hqex, hqdir,
            findEntry_of_not_mem exe q _ hq] using hrest
        · simpa [env.whichLoop, Bool.eq_false_iff.2 hqdir] using hrest
      · simpa [env.whichLoop, Bool.eq_false_iff.2 hqex] using hrest

/-! Lemmas about the version comparison and the candidate ordering. -/

theorem verCmp_eq_iff : ∀ a b : Version, verCmp a b = Ordering.eq ↔ a = b
  | [], [] => by simp [verCmp]
  | [], _ :: _ => by simp [verCmp]
  | _ :: _, [] => by simp [verCmp]
  | a :: as, b :: bs => by
    simp only [verCmp, List.cons.injEq]
    rcases Nat.lt_trichotomy a b with h | h | h
    · rw [if_pos h]
      constructor
      · intro h2; exact absurd h2 (by decide)
      · rintro ⟨hab, _⟩; omega
    · subst h
      rw [if_neg (Nat.lt_irrefl a), if_neg (Nat.lt_irrefl a)]
      simp [verCmp_eq_iff as bs]
    · rw [if_neg (by omega), if_pos h]
      constructor
      · intro h2; exact absurd h2 (by decide)
      · rintro ⟨hab, _⟩; omega

theorem verCmp_swap : ∀ a b : Version, verCmp a b = (verCmp b a).swap
  | [], [] => rfl
  | [], _ :: _ => rfl
  | _ :: _, [] => rfl
  | a :: as, b :: bs => by
    simp only [verCmp]
    rcases Nat.lt_trichotomy a b with h | h | h
    · rw [if_pos h, if_neg (by omega), if_pos h]; rfl
    · subst h
      simp only [if_neg (Nat.lt_irrefl a)]
      exact verCmp_swap as bs
    · rw [if_neg (by omega), if_pos h, if_pos h]; rfl

theorem verCmp_lt_trans : ∀ a b c : Version,
    verCmp a b = Ordering.lt → verCmp b c = Ordering.lt → verCmp a c = Ordering.lt
  | [], [], _, h1, _ => by cases h1
  | [], _ :: _, [], _, h2 => by cases h2
  | [], _ :: _, _ :: _, _, _ => rfl
  | _ :: _, [], _, h1, _ => by cases h1
  | _ :: _, _ :: _, [], _, h2 => by cases h2
  | a :: as, b :: bs, c :: cs, h1, h2 => by
    simp only [verCmp] at h1 h2 ⊢
    rcases Nat.lt_trichotomy a b with hab | hab | hab
    · rcases Nat.lt_trichotomy b c with hbc | hbc | hbc
      · rw [if_pos (by omega)]
      · subst hbc; rw [if_pos hab]
      · rw [if_neg (by omega), if_pos hbc] at h2; cases h2
    · subst hab
      rcases Nat.lt_trichotomy a c with hac | hac | hac
      · rw [if_pos hac]
      · subst hac
        rw [if_neg (Nat.lt_irrefl a), if_neg (Nat.lt_irrefl a)] at h1 h2 ⊢
        exact verCmp_lt_trans as bs cs h1 h2
      · rw [if_neg (by omega), if_pos hac] at h2; cases h2
    · rw [if_neg (by omega), if_pos hab] at h1; cases h1

theorem candLE_total (a b : PackageRecord × Nat) :
    candLE a b = true ∨ candLE b a = true := by
  unfold candLE
  cases h : verCmp b.1.version a.1.version with
  | lt => left; rfl
  | gt =>
    right
    have : verCmp a.1.version b.1.version = Ordering.lt := by
      rw [verCmp_swap, h]; rfl
    rw [this]
  | eq =>
    have h2 : verCmp a.1.version b.1.version = Ordering.eq := by
      rw [verCmp_swap, h]; rfl
    rw [h2]
    rcases Nat.lt_trichotomy a.1.buildNumber b.1.buildNumber with hn | hn | hn
    · right; rw [if_pos hn]
    · rw [hn, if_neg (Nat.lt_irrefl _), if_neg (Nat.lt_irrefl _),
        if_neg (Nat.lt_irrefl _), if_neg (Nat.lt_irrefl _)]
      rcases Nat.le_total a.2 b.2 with hp | hp
      · left; simpa using hp
      · right; simpa using hp
    · left; rw [if_pos hn]

theorem numKeyLE_trans (ba bb bc pa pb pc : Nat)
    (h1 : (if bb < ba then true else if ba < bb then false else decide (pa ≤ pb)) = true)
    (h2 : (if bc < bb then true else if bb < bc then false else decide (pb ≤ pc)) = true) :
    (if bc < ba then true else if ba < bc then false else decide (pa ≤ pc)) = true := by
  split_ifs at h1 h2 ⊢ <;> simp_all <;> omega

theorem candLE_trans (a b c : PackageRecord × Nat) :
    candLE a b = true → candLE b c = true → candLE a c = true := by
  unfold candLE
  intro h1 h2
  cases hba : verCmp b.1.version a.1.version with
  | gt => rw [hba] at h1; cases h1
  | lt =>
    cases hcb : verCmp c.1.version b.1.version with
    | gt => rw [hcb] at h2; cases h2
    | lt => rw [verCmp_lt_trans _ _ _ hcb hba]
    | eq =>
      have hv : c.1.version = b.1.version := (verCmp_eq_iff _ _).1 hcb
      rw [hv, hba]
  | eq =>
    have hv : b.1.version = a.1.version := (verCmp_eq_iff _ _).1 hba
    rw [hba] at h1
    cases hcb : verCmp c.1.version b.1.version with
    | gt => rw [hcb] at h2; cases h2
    | lt => rw [← hv, hcb]
    | eq =>
      have hv2 : c.1.version = b.1.version := (verCmp_eq_iff _ _).1 hcb
      rw [hcb] at h2
      have hvc : verCmp c.1.version a.1.version = Ordering.eq :=
        (verCmp_eq_iff _ _).2 (hv2.trans hv)
      rw [hvc]
      exact numKeyLE_trans _ _ _ _ _ _ h1 h2

instance : IsTotal (PackageRecord × Nat) candRel := ⟨candLE_total⟩

instance : IsTrans (PackageRecord × Nat) candRel := ⟨candLE_trans⟩

theorem candLE_to_key (a b : PackageRecord × Nat) (h : candLE a b = true) :
    verLT b.1.version a.1.version
      ∨ (a.1.version = b.1.version
          ∧ (b.1.buildNumber < a.1.buildNumber
              ∨ (a.1.buildNumber = b.1.buildNumber ∧ a.2 ≤ b.2))) := by
  unfold candLE at h
  cases hba : verCmp b.1.version a.1.version with
  | lt => exact Or.inl hba
  | gt => rw [hba] at h; cases h
  | eq =>
    right
    refine ⟨((verCmp_eq_iff _ _).1 hba).symm, ?_⟩
    rw [hba] at h
    by_cases h1 : b.1.buildNumber < a.1.buildNumber
    · exact Or.inl h1
    · rw [if_neg h1] at h
      by_cases h2 : a.1.buildNumber < b.1.buildNumber
      · rw [if_pos h2] at h; cases h
      · rw [if_neg h2] at h
        exact Or.inr ⟨by omega, by simpa using h⟩

/-! Lemmas about candidate membership and the solver loop. -/

theorem satisfies_name (r : PackageRecord) (ms : MatchSpec)
    (h : satisfies r ms = true) : r.name = ms.name := by
  simp only [satisfies, Bool.and_eq_true, beq_iff_eq] at h
  exact h.1.1.1.1

theorem mem_candidates (pool : Pool) (ms : MatchSpec) (r : PackageRecord)
    (h : r ∈ candidates pool ms) : satisfies r ms = true := by
  rcases List.mem_map.1 h with ⟨p, hp, rfl⟩
  have hp2 : p ∈ pool.filter (fun q => satisfies q.1 ms) :=
    (List.perm_insertionSort candRel (pool.filter (fun q => satisfies q.1 ms))).mem_iff.1 hp
  exact (List.mem_filter.1 hp2).2

theorem mem_availCandidates (pool : Pool) (removed : List String) (s : MatchSpec)
    (r : PackageRecord) (h : r ∈ availCandidates pool removed s) :
    satisfies r s = true :=
  mem_candidates pool s r (List.mem_filter.1 h).1

theorem satBy_cons (x : PackageRecord) (sel : List PackageRecord) (d : MatchSpec) :
    satBy (x :: sel) d = (satisfies x d || satBy sel d) := by
  simp [satBy]

theorem nameTaken_ne_true (sel : List PackageRecord) (n : String)
    (h : ¬ nameTaken sel n = true) : ∀ r ∈ sel, r.name ≠ n := by
  intro r hr he
  apply h
  show sel.any (fun r => r.name == n) = true
  exact List.any_eq_true.2 ⟨r, hr, by simp [he]⟩

theorem solveLoop_closure (pool : Pool) (removed : List String) :
    ∀ (fuel : Nat) (sel : List PackageRecord) (pending : List MatchSpec)
      (sol : List PackageRecord),
    (∀ r ∈ sel, ∀ d ∈ hardDeps r, satBy sel d = true ∨ d ∈ pending) →
    solveLoop pool removed fuel sel pending = some sol →
    ∀ r ∈ sol, ∀ d ∈ hardDeps r, satBy sol d = true := by
  intro fuel
  induction fuel with
  | zero => intro sel pending sol _ h; simp [solveLoop] at h
  | succ n ih =>
    intro sel pending sol hinv h
    cases pending with
    | nil =>
      simp only [solveLoop, Option.some.injEq] at h
      subst h
      intro r hr d hd
      rcases hinv r hr d hd with h1 | h1
      · exact h1
      · cases h1
    | cons s rest =>
      simp only [solveLoop] at h
      by_cases hsb : satBy sel s = true
      · rw [if_pos hsb] at h
        refine ih sel rest sol ?_ h
        intro r hr d hd
        rcases hinv r hr d hd with h1 | h1
        · exact Or.inl h1
        · rcases List.mem_cons.1 h1 with h2 | h2
          · subst h2; exact Or.inl hsb
          · exact Or.inr h2
      · rw [if_neg hsb] at h
        by_cases hnt : nameTaken sel s.name = true
        · rw [if_pos hnt] at h; cases h
        · rw [if_neg hnt] at h
          cases hc : availCandidates pool removed s with
          | nil => rw [hc] at h; cases h
          | cons r0 rest0 =>
            rw [hc] at h
            refine ih (r0 :: sel) (rest ++ hardDeps r0) sol ?_ h
            intro r hr d hd
            rcases List.mem_cons.1 hr with h2 | h2
            · subst h2
              exact Or.inr (List.mem_append_right rest hd)
            · rcases hinv r h2 d hd with h3 | h3
              · exact Or.inl (by rw [satBy_cons]; simp [h3])
              · rcases List.mem_cons.1 h3 with h4 | h4
                · subst h4
                  have hr0 : satisfies r0 d = true := by
                    refine mem_availCandidates pool removed d r0 ?_
                    rw [hc]
                    exact List.mem_cons_self r0 rest0
                  exact Or.inl (by rw [satBy_cons]; simp [hr0])
                · exact Or.inr (List.mem_append_left _ h4)

theorem solveLoop_nodupNames (pool : Pool) (removed : List String) :
    ∀ (fuel : Nat) (sel : List PackageRecord) (pending : List MatchSpec)
      (sol : List PackageRecord),
    sel.Pairwise (fun a b => a.name ≠ b.name) →
    solveLoop pool removed fuel sel pending = some sol →
    sol.Pairwise (fun a b => a.name ≠ b.name) := by
  intro fuel
  induction fuel with
  | zero => intro sel pending sol _ h; simp [solveLoop] at h
  | succ n ih =>
    intro sel pending sol hnd h
    cases pending with
    | nil =>
      simp only [solveLoop, Option.some.injEq] at h
      subst h
      exact hnd
    | cons s rest =>
      simp only [solveLoop] at h
      by_cases hsb : satBy sel s = true
      · rw [if_pos hsb] at h
        exact ih sel rest sol hnd h
      · rw [if_neg hsb] at h
        by_cases hnt : nameTaken sel s.name = true
        · rw [if_pos hnt] at h; cases h
        · rw [if_neg hnt] at h
          cases hc : availCandidates pool removed s with
          | nil => rw [hc] at h; cases h
          | cons r0 rest0 =>
            rw [hc] at h
            refine ih (r0 :: sel) (rest ++ hardDeps r0) sol ?_ h
            refine List.pairwise_cons.2 ⟨?_, hnd⟩
            intro x hx
            have hr0 : r0.name = s.name := by
              refine satisfies_name r0 s (mem_availCandidates pool removed s r0 ?_)
              rw [hc]
              exact List.mem_cons_self r0 rest0
            rw [hr0]
            exact fun he => nameTaken_ne_true sel s.name hnt x hx he.symm

theorem buildRequestJobs_fail (pool : Pool) (installed : InstalledState) :
    ∀ (requests : List Request) (s : MatchSpec),
    Request.install s ∈ requests → candidates pool s = [] →
    ∃ n, (∃ s2, Request.install s2 ∈ requests ∧ s2.name = n
        ∧ candidates pool s2 = [])
      ∧ JobBuilder.buildRequestJobs pool installed requests
          = .error (.unsatisfiableRequest n)
  | [], s => by intro hs _; cases hs
  | rq :: rest, s => by
    intro hs hc
    cases rq with
    | install s0 =>
      by_cases h0 : candidates pool s0 = []
      · exact ⟨s0.name, ⟨s0, List.mem_cons_self _ _, rfl, h0⟩,
          by simp [JobBuilder.buildRequestJobs, h0]⟩
      · have hs2 : Request.install s ∈ rest := by
          rcases List.mem_cons.1 hs with he | h2
          · injection he with he
            subst he
            exact absurd hc h0
          · exact h2
        rcases buildRequestJobs_fail pool installed rest s hs2 hc with
          ⟨n, ⟨s2, hs2m, hn, hc2⟩, herr⟩
        refine ⟨n, ⟨s2, List.mem_cons_of_mem _ hs2m, hn, hc2⟩, ?_⟩
        simp [JobBuilder.buildRequestJobs, h0, herr]
    | remove m =>
      have hs2 : Request.install s ∈ rest := by
        rcases List.mem_cons.1 hs with he | h2
        · cases he
        · exact h2
      rcases buildRequestJobs_fail pool installed rest s hs2 hc with
        ⟨n, ⟨s2, hs2m, hn, hc2⟩, herr⟩
      refine ⟨n, ⟨s2, List.mem_cons_of_mem _ hs2m, hn, hc2⟩, ?_⟩
      simp [JobBuilder.buildRequestJobs, herr]

/-! Lemmas about the canonical name order. -/

theorem charListLt_irrefl : ∀ l : List Char, charListLt l l = false
  | [] => rfl
  | a :: as => by
    simp only [charListLt, if_neg (lt_irrefl a)]
    exact charListLt_irrefl as

theorem charListLt_trans : ∀ a b c : List Char,
    charListLt a b = true → charListLt b c = true → charListLt a c = true
  | [], [], _ => by intro h _; cases h
  | [], _ :: _, [] => by intro _ h; cases h
  | [], _ :: _, _ :: _ => by intro _ _; rfl
  | _ :: _, [], _ => by intro h _; cases h
  | _ :: _, _ :: _, [] => by intro _ h; cases h
  | a :: as, b :: bs, c :: cs => by
    intro h1 h2
    simp only [charListLt] at h1 h2 ⊢
    rcases lt_trichotomy a b with hab | hab | hab
    · rcases lt_trichotomy b c with hbc | hbc | hbc
      · rw [if_pos (lt_trans hab hbc)]
      · subst hbc; rw [if_pos hab]
      · rw [if_neg (not_lt_of_gt hbc), if_pos hbc] at h2; cases h2
    · subst hab
      rcases lt_trichotomy a c with hac | hac | hac
      · rw [if_pos hac]
      · subst hac
        rw [if_neg (lt_irrefl a), if_neg (lt_irrefl a)] at h1
        rw [if_neg (lt_irrefl a), if_neg (lt_irrefl a)] at h2
        rw [if_neg (lt_irrefl a), if_neg (lt_irrefl a)]
        exact charListLt_trans as bs cs h1 h2
      · rw [if_neg (not_lt_of_gt hac), if_pos hac] at h2; cases h2
    · rw [if_neg (not_lt_of_gt hab), if_pos hab] at h1; cases h1

theorem charListLt_total : ∀ a b : List Char,
    a ≠ b → charListLt a b = true ∨ charListLt b a = true
  | [], [] => by intro h; exact absurd rfl h
  | [], _ :: _ => by intro _; left; rfl
  | _ :: _, [] => by intro _; right; rfl
  | a :: as, b :: bs => by
    intro h
    rcases lt_trichotomy a b with hab | hab | hab
    · left
      simp only [charListLt, if_pos hab]
    · subst hab
      have hne : as ≠ bs := fun he => h (by rw [he])
      rcases charListLt_total as bs hne with h2 | h2
      · left
        simp only [charListLt, if_neg (lt_irrefl a)]
        exact h2
      · right
        simp only [charListLt, if_neg (lt_irrefl a)]
        exact h2
    · right
      simp only [charListLt, if_pos hab]

theorem nameLt_irrefl (a : String) : ¬ nameLt a a := by
  simp [nameLt, charListLt_irrefl]

theorem nameLt_ne {a b : String} (h : nameLt a b) : a ≠ b := by
  intro he
  subst he
  exact nameLt_irrefl a h

theorem nameLt_trans {a b c : String} (h1 : nameLt a b) (h2 : nameLt b c) :
    nameLt a c :=
  charListLt_trans a.data b.data c.data h1 h2

theorem nameLt_asymm {a b : String} (h : nameLt a b) : ¬ nameLt b a :=
  fun h2 => nameLt_irrefl a (nameLt_trans h h2)

theorem nameLt_total {a b : String} (h : a ≠ b) : nameLt a b ∨ nameLt b a := by
  refine charListLt_total a.data b.data ?_
  intro he
  apply h
  cases a
  cases b
  cases he
  rfl

theorem nameLt_of_not_of_ne {a b : String} (hn : ¬ nameLt a b) (hne : a ≠ b) :
    nameLt b a :=
  (nameLt_total hne).resolve_left hn

/-! Lemmas about the installed-state manifest. -/

theorem lookupName_some : ∀ (st : InstalledState) (n : String) (r : PackageRecord),
    lookupName n st = some r → r ∈ st ∧ r.name = n
  | [], _, _ => by intro h; cases h
  | x :: rest, n, r => by
    intro h
    by_cases hx : x.name = n
    · simp only [lookupName, if_pos hx] at h
      injection h with h
      subst h
      exact ⟨List.mem_cons_self x rest, hx⟩
    · simp only [lookupName, if_neg hx] at h
      rcases lookupName_some rest n r h with ⟨h1, h2⟩
      exact ⟨List.mem_cons_of_mem x h1, h2⟩

theorem lookupName_eq_none : ∀ (st : InstalledState) (n : String),
    lookupName n st = none ↔ ∀ r ∈ st, r.name ≠ n
  | [], n => by simp [lookupName]
  | x :: rest, n => by
    by_cases hx : x.name = n
    · simp only [lookupName, if_pos hx]
      constructor
      · intro h; cases h
      · intro h; exact absurd hx (h x (List.mem_cons_self x rest))
    · simp only [lookupName, if_neg hx]
      rw [lookupName_eq_none rest n]
      constructor
      · intro h r hr
        rcases List.mem_cons.1 hr with rfl | hr2
        · exact hx
        · exact h r hr2
      · intro h r hr
        exact h r (List.mem_cons_of_mem x hr)

theorem mem_insertSorted (r y : PackageRecord) :
    ∀ st : InstalledState, y ∈ insertSorted r st ↔ y = r ∨ y ∈ st
  | [] => by simp [insertSorted]
  | x :: rest => by
    by_cases hlt : nameLt r.name x.name
    · simp only [insertSorted, if_pos hlt, List.mem_cons]
    · simp only [insertSorted, if_neg hlt, List.mem_cons, mem_insertSorted r y rest]
      tauto

theorem eraseName_cons_self (n : String) (y : PackageRecord) (l : InstalledState)
    (h : y.name = n) : eraseName n (y :: l) = eraseName n l := by
  simp [eraseName, List.filter_cons, h]

theorem eraseName_cons_ne (n : String) (y : PackageRecord) (l : InstalledState)
    (h : y.name ≠ n) : eraseName n (y :: l) = y :: eraseName n l := by
  simp [eraseName, List.filter_cons, h]

theorem eraseName_eq_self (n : String) (st : InstalledState)
    (h : ∀ y ∈ st, y.name ≠ n) : eraseName n st = st := by
  simp only [eraseName]
  rw [List.filter_eq_self]
  intro a ha
  simp [h a ha]

theorem sorted_eraseName (n : String) (st : InstalledState) (h : SortedState st) :
    SortedState (eraseName n st) :=
  List.Pairwise.sublist (List.filter_sublist st) h

theorem sorted_insertSorted (r : PackageRecord) :
    ∀ st : InstalledState, SortedState st → (∀ y ∈ st, y.name ≠ r.name) →
      SortedState (insertSorted r st)
  | [] => by
    intro _ _
    simp [insertSorted, SortedState]
  | x :: rest => by
    intro h habs
    rcases List.pairwise_cons.1 h with ⟨hx, hrest⟩
    by_cases hlt : nameLt r.name x.name
    · simp only [insertSorted, if_pos hlt]
      refine List.pairwise_cons.2 ⟨?_, h⟩
      intro y hy
      rcases List.mem_cons.1 hy with rfl | hy2
      · exact hlt
      · exact nameLt_trans hlt (hx y hy2)
    · simp only [insertSorted, if_neg hlt]
      refine List.pairwise_cons.2 ⟨?_, sorted_insertSorted r rest hrest
        (fun y hy => habs y (List.mem_cons_of_mem x hy))⟩
      intro y hy
      rcases (mem_insertSorted r y rest).1 hy with rfl | hy2
      · exact nameLt_of_not_of_ne hlt (habs x (List.mem_cons_self x rest)).symm
      · exact hx y hy2

theorem eraseName_insertSorted (r : PackageRecord) :
    ∀ st : InstalledState, (∀ y ∈ st, y.name ≠ r.name) →
      eraseName r.name (insertSorted r st) = st
  | [] => by
    intro _
    simp [insertSorted, eraseName, List.filter_cons]
  | x :: rest => by
    intro habs
    have hxne : x.name ≠ r.name := habs x (List.mem_cons_self x rest)
    have hrest : ∀ y ∈ rest, y.name ≠ r.name :=
      fun y hy => habs y (List.mem_cons_of_mem x hy)
    by_cases hlt : nameLt r.name x.name
    · simp only [insertSorted, if_pos hlt]
      rw [eraseName_cons_self r.name r _ rfl, eraseName_cons_ne r.name x _ hxne,
        eraseName_eq_self r.name rest hrest]
    · simp only [insertSorted, if_neg hlt]
      rw [eraseName_cons_ne r.name x _ hxne, eraseName_insertSorted r rest hrest]

theorem insertSorted_head (r : PackageRecord) :
    ∀ st : InstalledState, (∀ y ∈ st, nameLt r.name y.name) → insertSorted r st = r :: st
  | [] => by intro _; rfl
  | x :: rest => by
    intro h
    simp [insertSorted, h x (List.mem_cons_self x rest)]

theorem insertSorted_eraseName (r : PackageRecord) :
    ∀ st : InstalledState, SortedState st → lookupName r.name st = some r →
      insertSorted r (eraseName r.name st) = st
  | [] => by intro _ h; cases h
  | x :: rest => by
    intro hs hl
    rcases List.pairwise_cons.1 hs with ⟨hx, hrest⟩
    by_cases hxn : x.name = r.name
    · simp only [lookupName, if_pos hxn] at hl
      injection hl with hl
      subst hl
      rw [eraseName_cons_self x.name x rest rfl,
        eraseName_eq_self x.name rest (fun y hy => (nameLt_ne (hx y hy)).symm)]
      exact insertSorted_head x rest hx
    · simp only [lookupName, if_neg hxn] at hl
      have hmem : r ∈ rest := (lookupName_some rest r.name r hl).1
      have hxr : nameLt x.name r.name := hx r hmem
      rw [eraseName_cons_ne r.name x rest (fun h => hxn h)]
      simp only [insertSorted, if_neg (nameLt_asymm hxr)]
      rw [insertSorted_eraseName r rest hrest hl]

theorem revertOp_applyOp (op : TransactionOperation) (st : InstalledState)
    (hs : SortedState st) (hok : opOk op st) : revertOp op (applyOp op st) = st := by
  cases op with
  | link r =>
    exact eraseName_insertSorted r st ((lookupName_eq_none st r.name).1 hok)
  | unlink r =>
    exact insertSorted_eraseName r st hs hok
  | supersede o n =>
    rcases hok with ⟨hname, hl⟩
    show insertSorted o (eraseName n.name (insertSorted n (eraseName o.name st))) = st
    have h1 : ∀ y ∈ eraseName o.name st, y.name ≠ n.name := by
      intro y hy
      have hy2 := (List.mem_filter.1 hy).2
      rw [← hname]
      simpa using hy2
    rw [eraseName_insertSorted n (eraseName o.name st) h1]
    exact insertSorted_eraseName o st hs hl
  | noOp r => rfl

theorem sortedState_applyOp (op : TransactionOperation) (st : InstalledState)
    (hs : SortedState st) (hok : opOk op st) : SortedState (applyOp op st) := by
  cases op with
  | link r =>
    exact sorted_insertSorted r st hs ((lookupName_eq_none st r.name).1 hok)
  | unlink r => exact sorted_eraseName r.name st hs
  | supersede o n =>
    rcases hok with ⟨hname, _⟩
    refine sorted_insertSorted n (eraseName o.name st) (sorted_eraseName o.name st hs) ?_
    intro y hy
    have hy2 := (List.mem_filter.1 hy).2
    rw [← hname]
    simpa using hy2
  | noOp r => exact hs

/-! Lemmas about the transaction planner. -/

theorem pairwise_name_unique : ∀ l : List PackageRecord,
    l.Pairwise (fun a b => a.name ≠ b.name) →
    ∀ s ∈ l, ∀ r ∈ l, s.name = r.name → s = r
  | [] => by intro _ s hs; cases hs
  | x :: rest => by
    intro h s hs r hr hname
    rcases List.pairwise_cons.1 h with ⟨hx, hrest⟩
    rcases List.mem_cons.1 hs with rfl | hs2
    · rcases List.mem_cons.1 hr with rfl | hr2
      · rfl
      · exact absurd hname (hx r hr2)
    · rcases List.mem_cons.1 hr with rfl | hr2
      · exact absurd hname.symm (hx s hs2)
      · exact pairwise_name_unique rest hrest s hs2 r hr2 hname

theorem mem_planLinks (installed solution : List PackageRecord)
    (op : TransactionOperation) :
    op ∈ TransactionPlanner.planLinks installed solution ↔
      ∃ s ∈ solution, lookupName s.name installed = none
        ∧ op = TransactionOperation.link s := by
  simp only [TransactionPlanner.planLinks, List.mem_filterMap]
  constructor
  · rintro ⟨a, ha, hf⟩
    by_cases hl : lookupName a.name installed = none
    · rw [if_pos hl] at hf
      injection hf with hf
      exact ⟨a, ha, hl, hf.symm⟩
    · rw [if_neg hl] at hf
      cases hf
  · rintro ⟨s, hs, hl, rfl⟩
    exact ⟨s, hs, by rw [if_pos hl]⟩

/-! Lemmas about the execution loop. -/

theorem countNamed_le_one : ∀ (l : List PackageRecord) (n : String),
    l.Pairwise (fun a b => a.name ≠ b.name) → countNamed n l ≤ 1
  | [], n => by simp [countNamed]
  | r :: rest, n => by
    intro h
    rcases List.pairwise_cons.1 h with ⟨hr, hrest⟩
    by_cases hn : r.name = n
    · have hempty : rest.filter (fun x => x.name == n) = [] := by
        rw [List.filter_eq_nil_iff]
        intro x hx hbeq
        have hx2 : x.name = n := by simpa using hbeq
        exact hr x hx (by rw [hn, hx2])
      simp [countNamed, List.filter_cons, hn, hempty]
    · have := countNamed_le_one rest n hrest
      simpa [countNamed, List.filter_cons, hn] using this

theorem execGo_commit (st0 : InstalledState) (hist : List HistoryEntry)
    (failAt : Option Nat) :
    ∀ (rem : List TransactionOperation) (i : Nat) (st : InstalledState)
      (applied : List TransactionOperation),
    (∀ j, failAt = some j → j < i ∨ i + rem.length ≤ j) →
    TransactionExecutor.execGo st0 hist failAt i st applied rem
      = .committed (applyOps rem st) (⟨st0, applyOps rem st⟩ :: hist)
  | [], i, st, applied => by
    intro _
    simp [TransactionExecutor.execGo, applyOps]
  | op :: rest, i, st, applied => by
    intro h
    have hne : ¬(failAt = some i) := by
      intro hf
      rcases h i hf with h2 | h2
      · omega
      · simp only [List.length_cons] at h2
        omega
    simp only [TransactionExecutor.execGo, if_neg hne]
    have hbound : ∀ j, failAt = some j → j < i + 1 ∨ (i + 1) + rest.length ≤ j := by
      intro j hj
      rcases h j hj with h2 | h2
      · omega
      · right
        simp only [List.length_cons] at h2
        omega
    have := execGo_commit st0 hist failAt rest (i + 1) (applyOp op st) (op :: applied) hbound
    rw [this]
    rfl

theorem rollback_snoc (applied : List TransactionOperation) (op : TransactionOperation)
    (st : InstalledState) :
    TransactionExecutor.rollback (op :: applied) st
      = TransactionExecutor.rollback applied (revertOp op st) := rfl

theorem execGo_fail (st0 : InstalledState) (hist : List HistoryEntry) (jf : Nat) :
    ∀ (rem : List TransactionOperation) (i : Nat) (st : InstalledState)
      (applied : List TransactionOperation) (S : InstalledState),
    i ≤ jf → jf < i + rem.length →
    SortedState st → validPlan st rem →
    TransactionExecutor.rollback applied st = S →
    TransactionExecutor.execGo st0 hist (some jf) i st applied rem = .failed S hist
  | [], i, st, applied, S => by
    intro h1 h2
    simp only [List.length_nil] at h2
    omega
  | op :: rest, i, st, applied, S => by
    intro h1 h2 hs hv hroll
    by_cases hij : i = jf
    · subst hij
      simp [TransactionExecutor.execGo, hroll]
    · have hne : ¬((some jf : Option Nat) = some i) := by
        intro hf
        injection hf with hf
        exact hij hf.symm
      simp only [TransactionExecutor.execGo, if_neg hne]
      rcases hv with ⟨hok, hv2⟩
      refine execGo_fail st0 hist jf rest (i + 1) (applyOp op st) (op :: applied) S
        (by omega) (by simp only [List.length_cons] at h2; omega)
        (sortedState_applyOp op st hs hok) hv2 ?_
      rw [rollback_snoc, revertOp_applyOp op st hs hok]
      exact hroll

/-! Theorems settling the claims. -/

/-- C9: on POSIX, `env::get(key)` is a pure lookup: it returns Some
value exactly when getenv reports the variable present with that value,
and None exactly when the variable is absent; being a total Lean
function of the getenv oracle, it never throws and never partially
succeeds. -/
theorem env_get_pure_lookup (getenv : String → Option String) (key : String) :
    (∀ v, env.get getenv key = some v ↔ getenv key = some v)
      ∧ (env.get getenv key = none ↔ getenv key = none) := by
  cases h : getenv key <;> simp [env.get, h]

/-- C8: round-trip of tilde expansion — for a path starting with a
tilde, with the home directory the same non-empty string in both
calls, `shrink_user` undoes `expand_user`; a path not starting with a
tilde is left unchanged by `expand_user`. -/
theorem expand_shrink_roundtrip (home rest : List Char) (hne : home ≠ []) :
    env.shrink_user home (env.expand_user home ('~' :: rest)) = '~' :: rest
      ∧ ∀ p : List Char, p.head? ≠ some '~' → env.expand_user home p = p := by
  refine ⟨?_, ?_⟩
  · have hsw := starts_with_append home rest
    simp [env.expand_user, env.shrink_user, hsw]
  · intro p hp
    cases p with
    | nil => rfl
    | cons c r =>
      have hc : ¬(c = '~') := by
        intro h
        exact hp (by simp [h])
      simp [env.expand_user, hc]

/-- Witness for C8 at a concrete home directory and path. -/
theorem expand_shrink_roundtrip_witness :
    (['/', 'h'] : List Char) ≠ []
      ∧ env.shrink_user ['/', 'h'] (env.expand_user ['/', 'h'] ['~', '/', 'x'])
          = ['~', '/', 'x'] :=
  ⟨by decide,
    (expand_shrink_roundtrip ['/', 'h'] ['/', 'x'] (by decide)).1⟩

/-- C10: `env::which(exe)` returns the empty path when PATH is unset
or when no existing directory among the PATH components contains an
entry named `exe`; otherwise it returns the full path of the matching
entry from the earliest PATH component containing one, skipping
components that do not exist or are not directories. -/
theorem which_correct (fs : env.FileSystem) (path exe : List Char) :
    env.which fs none exe = []
      ∧ ((∀ p ∈ env.splitSep env.pathsep path,
            fs.pathExists p = false ∨ fs.isDirectory p = false ∨ exe ∉ fs.dirEntries p) →
          env.which fs (some path) exe = [])
      ∧ (∀ parts1 p parts2,
          env.splitSep env.pathsep path = parts1 ++ p :: parts2 →
          (∀ q ∈ parts1,
            fs.pathExists q = false ∨ fs.isDirectory q = false ∨ exe ∉ fs.dirEntries q) →
          fs.pathExists p = true → fs.isDirectory p = true →
          exe ∈ fs.dirEntries p →
          env.which fs (some path) exe = env.joinPath p exe) := by
  refine ⟨rfl, ?_, ?_⟩
  · intro h
    exact whichLoop_all_misses fs exe _ h
  · intro parts1 p parts2 hsplit h1 hex hdir hmem
    show env.whichLoop fs exe (env.splitSep env.pathsep path) = env.joinPath p exe
    rw [hsplit]
    exact whichLoop_finds fs exe parts1 p parts2 h1 hex hdir hmem

/-- C6: for every MatchSpec, the candidate sequence is ordered by
version descending first, then build number descending, then
repository priority ascending (registration order, first wins);
`candidates` projects the records out of this ordered sequence. -/
theorem candidates_ordered (pool : Pool) (ms : MatchSpec) :
    (candidatesWithPrio pool ms).Pairwise (fun a b =>
      verLT b.1.version a.1.version
        ∨ (a.1.version = b.1.version
            ∧ (b.1.buildNumber < a.1.buildNumber
                ∨ (a.1.buildNumber = b.1.buildNumber ∧ a.2 ≤ b.2))))
      ∧ candidates pool ms = (candidatesWithPrio pool ms).map Prod.fst := by
  refine ⟨?_, rfl⟩
  have hs : (candidatesWithPrio pool ms).Pairwise candRel :=
    List.sorted_insertionSort candRel (pool.filter (fun p => satisfies p.1 ms))
  exact hs.imp (fun h => candLE_to_key _ _ h)

/-- C2: the solver pipeline is deterministic — identical tuples of
requests, installed state, pins, and index produce identical
solutions. -/
theorem resolve_deterministic (r1 r2 : List Request) (i1 i2 : InstalledState)
    (p1 p2 : List MatchSpec) (x1 x2 : Pool)
    (hr : r1 = r2) (hi : i1 = i2) (hp : p1 = p2) (hx : x1 = x2) :
    resolve r1 i1 p1 x1 = resolve r2 i2 p2 x2 := by
  subst hr; subst hi; subst hp; subst hx; rfl

/-- Witness for C2 at a concrete (empty) input tuple. -/
theorem resolve_deterministic_witness :
    resolve [] [] [] [] = resolve [] [] [] [] :=
  resolve_deterministic [] [] [] [] [] [] [] [] rfl rfl rfl rfl

/-- C1: transaction atomicity — for a valid plan over a well-formed
installed state, execution with no failure (or a failure index past the
end) commits exactly the planned target and appends a HistoryEntry,
while a failure injected at any operation index rolls the already
applied operations back in reverse order, leaving the pre-execution
state exactly and the history untouched. -/
theorem transaction_atomicity (ops : List TransactionOperation)
    (st : InstalledState) (hist : List HistoryEntry) (failAt : Option Nat)
    (hs : SortedState st) (hv : validPlan st ops) :
    ((∀ j, failAt = some j → ops.length ≤ j) →
      TransactionExecutor.execute ops st hist failAt
        = .committed (applyOps ops st) (⟨st, applyOps ops st⟩ :: hist))
      ∧ ∀ j, failAt = some j → j < ops.length →
        TransactionExecutor.execute ops st hist failAt = .failed st hist := by
  constructor
  · intro h
    refine execGo_commit st hist failAt ops 0 st [] ?_
    intro j hj
    exact Or.inr (by simpa using h j hj)
  · intro j hf hlt
    rw [hf]
    exact execGo_fail st hist j ops 0 st [] st (Nat.zero_le j) (by simpa using hlt)
      hs hv rfl

/-- Witness for C1: linking "b" then "a" into an empty environment
commits to the sorted manifest with a history entry, and the same plan
with a failure injected at index 1 restores the empty state. -/
theorem transaction_atomicity_witness :
    TransactionExecutor.execute
        [TransactionOperation.link demoRecB, TransactionOperation.link demoRecA]
        [] [] none
      = .committed [demoRecA, demoRecB]
          (⟨[], [demoRecA, demoRecB]⟩ :: ([] : List HistoryEntry))
      ∧ TransactionExecutor.execute
          [TransactionOperation.link demoRecB, TransactionOperation.link demoRecA]
          [] [] (some 1)
        = .failed [] [] := by
  constructor
  · have h := (transaction_atomicity
      [TransactionOperation.link demoRecB, TransactionOperation.link demoRecA]
      [] [] none List.Pairwise.nil (by decide)).1 (fun j hj => by cases hj)
    exact h.trans (by decide)
  · exact (transaction_atomicity
      [TransactionOperation.link demoRecB, TransactionOperation.link demoRecA]
      [] [] (some 1) List.Pairwise.nil (by decide)).2 1 rfl (by decide)

/-- C4: uniqueness invariant — every Solution produced by the solver
contains at most one package per name, a well-formed InstalledState
contains at most one package per name, and every well-formed executor
operation preserves the canonical (sorted, hence name-unique) shape of
the installed state. -/
theorem uniqueness_invariant :
    (∀ (jobs : List Job) (pool : Pool) (sol : List PackageRecord),
        solve jobs pool = some sol → ∀ n, countNamed n sol ≤ 1)
      ∧ (∀ st : InstalledState, SortedState st → ∀ n, countNamed n st ≤ 1)
      ∧ ∀ (st : InstalledState) (op : TransactionOperation),
          SortedState st → opOk op st → SortedState (applyOp op st) := by
  refine ⟨?_, ?_, ?_⟩
  · intro jobs pool sol h n
    refine countNamed_le_one sol n ?_
    exact solveLoop_nodupNames pool (removedNames jobs) (pool.length + 1) []
      (installSpecs jobs) sol List.Pairwise.nil h
  · intro st hs n
    refine countNamed_le_one st n (hs.imp ?_)
    intro a b hab
    exact nameLt_ne hab
  · intro st op hs hok
    exact sortedState_applyOp op st hs hok

/-- Witness for C4 on the demo solve and a demo link operation. -/
theorem uniqueness_invariant_witness :
    countNamed "b" [demoRecB, demoRecA] ≤ 1
      ∧ SortedState (applyOp (TransactionOperation.link demoRecB) []) :=
  ⟨uniqueness_invariant.1 [Job.install (demoMS "a")] demoPool [demoRecB, demoRecA]
      (by decide) "b",
    uniqueness_invariant.2.2 [] (TransactionOperation.link demoRecB)
      List.Pairwise.nil rfl⟩

/-- C7: the planner emits exactly the set difference — `Unlink` for
installed packages whose name left the solution, `Link` for solution
packages whose name is not installed, `NoOp` for identical records
present in both, and `Supersede(old, new)` for same-named records with
different identity.  The solution is assumed name-unique, as every
solver output is. -/
theorem planner_set_difference (solution : List PackageRecord)
    (installed : InstalledState)
    (hND : solution.Pairwise (fun a b => a.name ≠ b.name)) :
    ∀ op, op ∈ TransactionPlanner.plan solution installed ↔
      ((∃ r, op = TransactionOperation.unlink r ∧ r ∈ installed
          ∧ r.name ∉ names solution)
        ∨ (∃ r, op = TransactionOperation.link r ∧ r ∈ solution
            ∧ r.name ∉ names installed)
        ∨ (∃ r, op = TransactionOperation.noOp r ∧ r ∈ solution ∧ r ∈ installed)
        ∨ ∃ o n, op = TransactionOperation.supersede o n ∧ o ∈ installed
            ∧ n ∈ solution ∧ o.name = n.name ∧ o ≠ n) := by
  intro op
  constructor
  · intro hop
    rcases List.mem_append.1 hop with h | h
    · rcases List.mem_map.1 h with ⟨r, hr, rfl⟩
      cases hl : lookupName r.name solution with
      | none =>
        left
        refine ⟨r, by simp [TransactionPlanner.plannedOp, hl], hr, ?_⟩
        intro hmem
        rcases List.mem_map.1 hmem with ⟨x, hx, hxn⟩
        exact (lookupName_eq_none solution r.name).1 hl x hx hxn
      | some s =>
        have hss := lookupName_some solution r.name s hl
        by_cases hsr : s = r
        · right; right; left
          exact ⟨r, by simp [TransactionPlanner.plannedOp, hl, hsr],
            hsr ▸ hss.1, hr⟩
        · right; right; right
          exact ⟨r, s, by simp [TransactionPlanner.plannedOp, hl, hsr], hr,
            hss.1, hss.2.symm, fun he => hsr (he.symm)⟩
    · rcases (mem_planLinks installed solution op).1 h with ⟨s, hs, hl, rfl⟩
      right; left
      refine ⟨s, rfl, hs, ?_⟩
      intro hmem
      rcases List.mem_map.1 hmem with ⟨x, hx, hxn⟩
      exact (lookupName_eq_none installed s.name).1 hl x hx hxn
  · intro hcase
    rcases hcase with ⟨r, rfl, hr, hnames⟩ | ⟨r, rfl, hr, hnames⟩
      | ⟨r, rfl, hrs, hri⟩ | ⟨o, n, rfl, ho, hn, hname, hne⟩
    · apply List.mem_append_left
      refine List.mem_map.2 ⟨r, hr, ?_⟩
      have hl : lookupName r.name solution = none := by
        rw [lookupName_eq_none]
        intro x hx he
        exact hnames (List.mem_map.2 ⟨x, hx, he⟩)
      simp [TransactionPlanner.plannedOp, hl]
    · apply List.mem_append_right
      refine (mem_planLinks installed solution _).2 ⟨r, hr, ?_, rfl⟩
      rw [lookupName_eq_none]
      intro x hx he
      exact hnames (List.mem_map.2 ⟨x, hx, he⟩)
    · apply List.mem_append_left
      refine List.mem_map.2 ⟨r, hri, ?_⟩
      cases hl : lookupName r.name solution with
      | none => exact absurd rfl ((lookupName_eq_none _ _).1 hl r hrs)
      | some s =>
        have hss := lookupName_some solution r.name s hl
        have hsr : s = r := pairwise_name_unique solution hND s hss.1 r hrs hss.2
        simp [TransactionPlanner.plannedOp, hl, hsr]
    · apply List.mem_append_left
      refine List.mem_map.2 ⟨o, ho, ?_⟩
      cases hl : lookupName o.name solution with
      | none => exact absurd hname.symm ((lookupName_eq_none _ _).1 hl n hn)
      | some s =>
        have hss := lookupName_some solution o.name s hl
        have hsn : s = n :=
          pairwise_name_unique solution hND s hss.1 n hn (hss.2.trans hname)
        subst hsn
        simp [TransactionPlanner.plannedOp, hl, Ne.symm hne]

/-- Witness for C7: on the demo solution and installed state, the plan
contains the Link of the newly selected package. -/
theorem planner_set_difference_witness :
    TransactionOperation.link demoRecA
      ∈ TransactionPlanner.plan [demoRecA, demoRecB] [demoRecB] :=
  (planner_set_difference [demoRecA, demoRecB] [demoRecB] (by decide)
      (TransactionOperation.link demoRecA)).2
    (Or.inr (Or.inl ⟨demoRecA, rfl, List.mem_cons_self _ _, by decide⟩))

/-- C5: an install request whose spec has zero candidates in the index
makes `JobBuilder.build` fail with `UnsatisfiableRequest` carrying the
name of an offending request, and the resolution pipeline surfaces that
error no matter which solver is plugged in — the solver is never
invoked. -/
theorem unsat_request_fails_fast (requests : List Request)
    (installed : InstalledState) (pins : List MatchSpec) (pool : Pool)
    (s : MatchSpec) (hmem : Request.install s ∈ requests)
    (hempty : candidates pool s = []) :
    ∃ n, (∃ s2, Request.install s2 ∈ requests ∧ s2.name = n
          ∧ candidates pool s2 = [])
      ∧ JobBuilder.build requests installed pins pool
          = .error (.unsatisfiableRequest n)
      ∧ ∀ slv, resolveWith slv requests installed pins pool
          = .error (.unsatisfiableRequest n) := by
  rcases buildRequestJobs_fail pool installed requests s hmem hempty with ⟨n, hn, herr⟩
  refine ⟨n, hn, ?_, ?_⟩
  · simp [JobBuilder.build, herr]
  · intro slv
    simp [resolveWith, JobBuilder.build, herr]

/-- Witness for C5: requesting the unknown name "x" against the demo
index fails with UnsatisfiableRequest before any solver runs. -/
theorem unsat_request_fails_fast_witness :
    ∃ n, (∃ s2, Request.install s2 ∈ [Request.install (demoMS "x")] ∧ s2.name = n
          ∧ candidates demoPool s2 = [])
      ∧ JobBuilder.build [Request.install (demoMS "x")] [] [] demoPool
          = .error (.unsatisfiableRequest n)
      ∧ ∀ slv, resolveWith slv [Request.install (demoMS "x")] [] [] demoPool
          = .error (.unsatisfiableRequest n) :=
  unsat_request_fails_fast [Request.install (demoMS "x")] [] [] demoPool
    (demoMS "x") (List.mem_cons_self _ _) (by decide)

/-- C3: closure invariant — in every Solution returned by the solver,
every non-optional dependency constraint of every selected package is
satisfied by some package also in the Solution. -/
theorem solution_closure (jobs : List Job) (pool : Pool)
    (sol : List PackageRecord) (h : solve jobs pool = some sol) :
    ∀ r ∈ sol, ∀ d ∈ r.depends, d.optional = false →
      ∃ s ∈ sol, satisfies s d = true := by
  intro r hr d hd hopt
  have hd2 : d ∈ hardDeps r := List.mem_filter.2 ⟨hd, by simp [hopt]⟩
  have hsb : satBy sol d = true := by
    refine solveLoop_closure pool (removedNames jobs) (pool.length + 1) []
      (installSpecs jobs) sol ?_ h r hr d hd2
    intro x hx
    cases hx
  rcases List.any_eq_true.1 hsb with ⟨s, hs, hsat⟩
  exact ⟨s, hs, hsat⟩

/-- Witness for C3: the demo solve of "a" yields a solution containing
a package satisfying the dependency of "a" on "b". -/
theorem solution_closure_witness :
    ∃ s ∈ [demoRecB, demoRecA], satisfies s (demoMS "b") = true :=
  solution_closure [Job.install (demoMS "a")] demoPool [demoRecB, demoRecA]
    (by decide) demoRecA (by decide) (demoMS "b") (by decide) (by decide)

/-- Witness for C10: with PATH "/a:/b" where only "/b" exists and
contains "sh", `which` returns "/b/sh". -/
theorem which_correct_witness :
    env.which env.demoFS (some ['/', 'a', ':', '/', 'b']) ['s', 'h']
      = env.joinPath ['/', 'b'] ['s', 'h'] :=
  (which_correct env.demoFS ['/', 'a', ':', '/', 'b'] ['s', 'h']).2.2
    [['/', 'a']] ['/', 'b'] [] (by decide)
    (by
      intro q hq
      have : q = ['/', 'a'] := by
        cases hq with
        | head => rfl
        | tail _ h => cases h
      subst this
      exact Or.inl (by decide))
    (by decide) (by decide) (by decide)

/-! Supplementary development: the plans emitted by the planner are
valid for the installed state they were computed from, so the validity
assumption of the atomicity theorem is exactly the executor's real
operating regime. -/

theorem lookupName_insertSorted_ne (r : PackageRecord) (n : String)
    (h : r.name ≠ n) :
    ∀ st : InstalledState, lookupName n (insertSorted r st) = lookupName n st
  | [] => by simp [insertSorted, lookupName, h]
  | x :: rest => by
    by_cases hlt : nameLt r.name x.name
    · simp only [insertSorted, if_pos hlt, lookupName, if_neg h]
    · simp only [insertSorted, if_neg hlt, lookupName]
      by_cases hx : x.name = n
      · simp only [if_pos hx]
      · simp only [if_neg hx]
        exact lookupName_insertSorted_ne r n h rest

theorem lookupName_eraseName_ne (m n : String) (h : m ≠ n) :
    ∀ st : InstalledState, lookupName n (eraseName m st) = lookupName n st
  | [] => rfl
  | x :: rest => by
    by_cases hx : x.name = m
    · rw [eraseName_cons_self m x rest hx]
      have hxn : ¬(x.name = n) := by rw [hx]; exact h
      simp only [lookupName, if_neg hxn]
      exact lookupName_eraseName_ne m n h rest
    · rw [eraseName_cons_ne m x rest hx]
      simp only [lookupName]
      by_cases hxn : x.name = n
      · simp only [if_pos hxn]
      · simp only [if_neg hxn]
        exact lookupName_eraseName_ne m n h rest

theorem lookupName_applyOp_ne (op : TransactionOperation) (st : InstalledState)
    (n : String) (h : n ∉ opNames op) :
    lookupName n (applyOp op st) = lookupName n st := by
  cases op with
  | link r =>
    have : r.name ≠ n := fun he => h (by simp [opNames, he])
    exact lookupName_insertSorted_ne r n this st
  | unlink r =>
    have : r.name ≠ n := fun he => h (by simp [opNames, he])
    exact lookupName_eraseName_ne r.name n this st
  | supersede o m =>
    have ho : o.name ≠ n := fun he => h (by simp [opNames, he])
    have hm : m.name ≠ n := fun he => h (by simp [opNames, he])
    show lookupName n (insertSorted m (eraseName o.name st)) = lookupName n st
    rw [lookupName_insertSorted_ne m n hm, lookupName_eraseName_ne o.name n ho]
  | noOp r => rfl

theorem opNames_plannedOp (solution : List PackageRecord) (r : PackageRecord) :
    ∀ m ∈ opNames (TransactionPlanner.plannedOp solution r), m = r.name := by
  intro m hm
  cases hl : lookupName r.name solution with
  | none =>
    simp only [TransactionPlanner.plannedOp, hl, opNames] at hm
    rcases List.mem_cons.1 hm with rfl | h2
    · rfl
    · cases h2
  | some s =>
    by_cases hsr : s = r
    · simp only [TransactionPlanner.plannedOp, hl, if_pos hsr, opNames] at hm
      cases hm
    · simp only [TransactionPlanner.plannedOp, hl, if_neg hsr, opNames] at hm
      have hsn : s.name = r.name := (lookupName_some solution r.name s hl).2
      rcases List.mem_cons.1 hm with rfl | h2
      · rfl
      · rcases List.mem_cons.1 h2 with rfl | h3
        · exact hsn
        · cases h3

theorem lookupName_self_of_pairwise (r : PackageRecord) :
    ∀ st : InstalledState, st.Pairwise (fun a b => a.name ≠ b.name) → r ∈ st →
      lookupName r.name st = some r
  | [] => by intro _ h; cases h
  | x :: rest => by
    intro h hr
    rcases List.pairwise_cons.1 h with ⟨hx, hrest⟩
    rcases List.mem_cons.1 hr with rfl | hr2
    · simp [lookupName]
    · have hxr : ¬(x.name = r.name) := hx r hr2
      simp only [lookupName, if_neg hxr]
      exact lookupName_self_of_pairwise r rest hrest hr2

theorem validPlan_append : ∀ (ops1 : List TransactionOperation)
    (st : InstalledState) (ops2 : List TransactionOperation),
    validPlan st ops1 → validPlan (applyOps ops1 st) ops2 →
    validPlan st (ops1 ++ ops2)
  | [], st, ops2 => by
    intro _ h2
    simpa [applyOps] using h2
  | op :: rest, st, ops2 => by
    intro h1 h2
    exact ⟨h1.1, validPlan_append rest (applyOp op st) ops2 h1.2 h2⟩

theorem validPlan_planInstalled (solution : List PackageRecord) :
    ∀ (rest : List PackageRecord) (st : InstalledState),
    (∀ r ∈ rest, lookupName r.name st = some r) →
    rest.Pairwise (fun a b => a.name ≠ b.name) →
    validPlan st (TransactionPlanner.planInstalled solution rest)
  | [], st => by intro _ _; trivial
  | r :: rest2, st => by
    intro h hp
    rcases List.pairwise_cons.1 hp with ⟨hr, hrest⟩
    have hlr : lookupName r.name st = some r := h r (List.mem_cons_self r rest2)
    refine ⟨?_, ?_⟩
    · cases hl : lookupName r.name solution with
      | none => exact (by simpa [TransactionPlanner.plannedOp, hl, opOk] using hlr :
          opOk (TransactionPlanner.plannedOp solution r) st)
      | some s =>
        by_cases hsr : s = r
        · simp [TransactionPlanner.plannedOp, hl, hsr, opOk]
        · have hsn : s.name = r.name := (lookupName_some solution r.name s hl).2
          simp only [TransactionPlanner.plannedOp, hl, if_neg hsr, opOk]
          exact ⟨hsn.symm, hlr⟩
    · refine validPlan_planInstalled solution rest2
        (applyOp (TransactionPlanner.plannedOp solution r) st) ?_ hrest
      intro r2 hr2
      rw [lookupName_applyOp_ne]
      · exact h r2 (List.mem_cons_of_mem r hr2)
      · intro hmem
        exact hr r2 hr2 ((opNames_plannedOp solution r r2.name hmem).symm)

theorem lookup_planInstalled_none (solution : List PackageRecord) :
    ∀ (rest : List PackageRecord) (st : InstalledState) (n : String),
    lookupName n st = none → (∀ r ∈ rest, r.name ≠ n) →
    lookupName n (applyOps (TransactionPlanner.planInstalled solution rest) st)
      = none
  | [], st, n => by
    intro h _
    simpa [TransactionPlanner.planInstalled, applyOps] using h
  | r :: rest2, st, n => by
    intro h hne
    show lookupName n (applyOps
      (TransactionPlanner.plannedOp solution r :: TransactionPlanner.planInstalled solution rest2)
      st) = none
    have step : lookupName n (applyOp (TransactionPlanner.plannedOp solution r) st)
        = none := by
      rw [lookupName_applyOp_ne]
      · exact h
      · intro hmem
        exact hne r (List.mem_cons_self r rest2)
          (opNames_plannedOp solution r n hmem).symm
    exact lookup_planInstalled_none solution rest2 _ n step
      (fun x hx => hne x (List.mem_cons_of_mem r hx))

theorem validPlan_planLinks (installed : List PackageRecord) :
    ∀ (sols : List PackageRecord) (st : InstalledState),
    (∀ s ∈ sols, lookupName s.name installed = none → lookupName s.name st = none) →
    sols.Pairwise (fun a b => a.name ≠ b.name) →
    validPlan st (TransactionPlanner.planLinks installed sols)
  | [], st => by intro _ _; trivial
  | s :: rest, st => by
    intro h hp
    rcases List.pairwise_cons.1 hp with ⟨hs, hrest⟩
    by_cases hl : lookupName s.name installed = none
    · have heq : TransactionPlanner.planLinks installed (s :: rest)
          = TransactionOperation.link s :: TransactionPlanner.planLinks installed rest := by
        simp [TransactionPlanner.planLinks, List.filterMap_cons, hl]
      rw [heq]
      refine ⟨h s (List.mem_cons_self s rest) hl, ?_⟩
      refine validPlan_planLinks installed rest
        (applyOp (TransactionOperation.link s) st) ?_ hrest
      intro s2 hs2 hl2
      show lookupName s2.name (insertSorted s st) = none
      rw [lookupName_insertSorted_ne s s2.name (hs s2 hs2)]
      exact h s2 (List.mem_cons_of_mem s hs2) hl2
    · have heq : TransactionPlanner.planLinks installed (s :: rest)
          = TransactionPlanner.planLinks installed rest := by
        simp [TransactionPlanner.planLinks, List.filterMap_cons, hl]
      rw [heq]
      exact validPlan_planLinks installed rest st
        (fun s2 hs2 => h s2 (List.mem_cons_of_mem s hs2)) hrest

theorem plan_produces_validPlan (solution : List PackageRecord)
    (installed : InstalledState) (hs : SortedState installed)
    (hND : solution.Pairwise (fun a b => a.name ≠ b.name)) :
    validPlan installed (TransactionPlanner.plan solution installed) := by
  have hpi : installed.Pairwise (fun a b => a.name ≠ b.name) :=
    hs.imp (fun h => nameLt_ne h)
  refine validPlan_append _ installed _ ?_ ?_
  · exact validPlan_planInstalled solution installed installed
      (fun r hr => lookupName_self_of_pairwise r installed hpi hr) hpi
  · refine validPlan_planLinks installed solution _ ?_ hND
    intro s hss hl
    refine lookup_planInstalled_none solution installed installed s.name ?_ ?_
    · exact hl
    · exact (lookupName_eq_none installed s.name).1 hl

end Mamba
